import Mathlib

/-!
Verification of dracut/driver_updates.py (driver update disk handler).

Python strings are modelled as lists of characters (PyStr); Python's
str.split, str.splitlines, set equality, list +, and the relevant functions
of the program are embedded as executable Lean definitions, translated
clause by clause from the source.
-/

/-- Python str modelled as a list of characters. -/
abbrev PyStr := List Char

/-- Helper for Python str.split(sep): locate the leftmost occurrence of the
separator, returning the piece before it and the remainder after it. -/
def findSplit (sep : List Char) : List Char → Option (List Char × List Char)
  | [] => none
  | c :: rest =>
    if sep.isPrefixOf (c :: rest) then some ([], (c :: rest).drop sep.length)
    else
      match findSplit sep rest with
      | none => none
      | some (pre, post) => some (c :: pre, post)

theorem findSplit_post_length {sep : List Char} (hsep : sep ≠ []) :
    ∀ {s pre post : List Char}, findSplit sep s = some (pre, post) →
      post.length < s.length := by
  intro s
  induction s with
  | nil => intro pre post h; simp [findSplit] at h
  | cons c rest ih =>
    intro pre post h
    simp only [findSplit] at h
    by_cases hp : sep.isPrefixOf (c :: rest)
    · rw [if_pos hp] at h
      injection h with h
      injection h with h1 h2
      subst h2
      have hlen : 0 < sep.length := List.length_pos.mpr hsep
      simp only [List.length_drop, List.length_cons]
      omega
    · rw [if_neg hp] at h
      cases hfs : findSplit sep rest with
      | none => rw [hfs] at h; cases h
      | some pr =>
        obtain ⟨pre1, post1⟩ := pr
        rw [hfs] at h
        injection h with h
        injection h with h1 h2
        subst h2
        have := ih hfs
        simp only [List.length_cons]
        omega

/-- Python str.split(sep) with no limit, over PyStr. An empty separator is
never used by the program (Python would raise ValueError); it is mapped to
the identity split. -/
def pySplitOn (sep s : List Char) : List (List Char) :=
  if hsep : sep = [] then [s]
  else
    match hfs : findSplit sep s with
    | none => [s]
    | some (pre, post) =>
      pre :: pySplitOn sep post
termination_by s.length
decreasing_by exact findSplit_post_length hsep hfs

/-- Python str.split(sep, maxsplit) for a single-character separator:
splits from the left at most the given number of times. -/
def pySplitLimit (sep : Char) : Nat → List Char → List (List Char)
  | _, [] => [[]]
  | 0, s => [s]
  | n + 1, c :: rest =>
    if c = sep then [] :: pySplitLimit sep n rest
    else
      match pySplitLimit sep (n + 1) rest with
      | [] => [[c]]
      | p :: ps => (c :: p) :: ps

/-- Python str.splitlines for newline-terminated text: every separator char
is a line break, and a trailing newline does not open a final empty line. -/
def splitlines (s : PyStr) : List PyStr :=
  match s with
  | [] => []
  | _ =>
    let parts := pySplitOn ['\n'] s
    if s.getLast? = some '\n' then parts.dropLast else parts

/-- A flat filesystem: an association from file names to their textual
content; the first binding for a name is its current content. -/
abbrev FS := List (String × PyStr)

/-- Content of a file, if it exists. -/
def readFile? (fs : FS) (name : String) : Option PyStr :=
  fs.lookup name

/-- Write (replace) the content of a file. -/
def setFile (fs : FS) (name : String) (content : PyStr) : FS :=
  (name, content) :: fs

/-- Embeds read_lines: return open(filename).read().splitlines(), with an
IOError (missing or unreadable file) mapped to the empty list. -/
def read_lines (fs : FS) (filename : String) : List PyStr :=
  match readFile? fs filename with
  | some content => splitlines content
  | none => []

/-- Embeds append_line: add a newline to the line unless it already ends
with one, then append it to the file (creating the file if absent). -/
def append_line (fs : FS) (filename : String) (line : PyStr) : FS :=
  let line := if line.getLast? ≠ some '\n' then line ++ ['\n'] else line
  let old := (readFile? fs filename).getD []
  setFile fs filename (old ++ line)

/-- Python set(a) == set(b) for lists of strings. -/
def pySetEqb (a b : List PyStr) : Bool :=
  a.all (fun x => b.contains x) && b.all (fun x => a.contains x)

/-- Embeds mark_finished: append the user request to the finished ledger
under topdir. -/
def mark_finished (fs : FS) (user_request : PyStr) (topdir : String) : FS :=
  append_line fs (topdir ++ "/dd_finished") user_request

/-- Embeds all_finished: read both ledgers fresh from the filesystem state
and compare them as Python sets. -/
def all_finished (fs : FS) (topdir : String) : Bool :=
  let finished := read_lines fs (topdir ++ "/dd_finished")
  let todo := read_lines fs (topdir ++ "/dd_todo")
  pySetEqb finished todo

/-- Ledger-file effects of finish: grab_driver_files and load_drivers touch
only module/firmware trees (no ledger file), then the request is marked
finished, and only then is all_finished consulted to decide whether the
one-shot sentinel /tmp/dd.done is appended. -/
def finish (fs : FS) (user_request : PyStr) : FS :=
  let fs := mark_finished fs user_request "/tmp"
  if all_finished fs "/tmp" then append_line fs "/tmp/dd.done" ['t','r','u','e']
  else fs

/-- Represents a single driver (rpm), as listed by dd_list. Missing
constructor arguments default to the empty string. -/
structure Driver where
  source : PyStr
  name : PyStr
  flags : PyStr
  description : PyStr
  repo : PyStr
deriving DecidableEq

/-- Builds Driver(*fields) from the at most four fields produced by
d.split(newline, 3); missing trailing arguments take their defaults. -/
def driverOfFields : List PyStr → Driver
  | [] => ⟨[], [], [], [], []⟩
  | [s] => ⟨s, [], [], [], []⟩
  | [s, n] => ⟨s, n, [], [], []⟩
  | [s, n, f] => ⟨s, n, f, [], []⟩
  | s :: n :: f :: d :: _ => ⟨s, n, f, d, []⟩

/-- The record separator of the dd_list tool output: a line of exactly
three hyphens, as it appears between two newline characters. -/
def SEP : List Char := ['\n', '-', '-', '-', '\n']

/-- Embeds the parsing part of dd_list: drivers are built from
out.split(record separator), keeping only non-empty records, each record
split on newlines into at most four fields, and every driver then has its
repo field set to dd_path. -/
def dd_list_parse (dd_path : PyStr) (out : PyStr) : List Driver :=
  ((pySplitOn SEP out).filter (fun d => !d.isEmpty)).map
    (fun d => { driverOfFields (pySplitLimit '\n' 3 d) with repo := dd_path })

/-- One record of well-formed dd_list output, before its terminator: the
first three fields newline-joined, then the description. -/
def renderRecord (r : Driver) : PyStr :=
  r.source ++ '\n' :: r.name ++ '\n' :: r.flags ++ '\n' :: r.description

/-- Well-formed dd_list output: each record followed by the separator line
of three hyphens (so the text ends with that line and a newline). -/
def renderOutput (rs : List Driver) : PyStr :=
  rs.foldr (fun r acc => renderRecord r ++ SEP ++ acc) []

/-- A record body is clean when the separator does not match starting at
any position strictly inside it (so the leftmost separator match of the
full output is the terminator written after the body). -/
def cleanB (sep : List Char) (part : List Char) : Bool :=
  part.tails.all (fun r => r.isEmpty || !(sep.isPrefixOf (r ++ sep)))

/-- List of files handed to the external command mv -f -t destdir by
move_files; empty when no call is made. The source computes
srcfiles = files not under destdir (f.startswith(destdir) is a prefix
test), but passes list(files) to mv. -/
def move_files_moved (files : List PyStr) (destdir : PyStr) : List PyStr :=
  let srcfiles := files.filter (fun f => !(destdir.isPrefixOf f))
  if !srcfiles.isEmpty then files else []

/-- List of files handed to the external command cp -f -t destdir by
copy_files; empty when no call is made. The source passes srcfiles. -/
def copy_files_copied (files : List PyStr) (destdir : PyStr) : List PyStr :=
  let srcfiles := files.filter (fun f => !(destdir.isPrefixOf f))
  if !srcfiles.isEmpty then srcfiles else []

/-- A Python value that is either an int or a list, as seen by the builtin
sum in repo_menu. -/
inductive PyVal (α : Type) where
  | int (n : Int)
  | list (xs : List α)
deriving DecidableEq

/-- Python binary +: int plus int adds, list plus list concatenates, and a
mixed application raises TypeError. -/
def pyAdd {α : Type} : PyVal α → PyVal α → Except String (PyVal α)
  | .int a, .int b => .ok (.int (a + b))
  | .list a, .list b => .ok (.list (a ++ b))
  | _, _ => .error "TypeError: unsupported operand type(s) for +"

/-- Python builtin sum(iterable) with its default start value 0. -/
def pySum {α : Type} (xs : List (PyVal α)) : Except String (PyVal α) :=
  xs.foldlM (fun acc x => pyAdd acc x) (PyVal.int 0)

/-- Embeds the first statement of repo_menu, drivers = sum of the dd_list
results of the discovered repositories: the per-repo package lists are fed
to Python's sum with its default integer start value. -/
def repo_menu_drivers (pkgLists : List (List Driver)) : Except String (PyVal Driver) :=
  pySum (pkgLists.map PyVal.list)

/-- Observable mount events of one run. -/
inductive MEvent where
  | mountEv (dev mnt : String)
  | umountEv (target : String)
deriving DecidableEq

/-- One run of the with-statement over the mounted context manager. The
generator body is mnt = mount(dev, mnt, options); yield mnt; umount(dev).
When the with-body raises, the exception is re-raised at the yield; the
generator has no try/finally, so the trailing umount line never runs. When
the body completes normally the generator resumes and calls umount with
dev — the device argument, not the mount point returned by mount. The body
returns its own event trace and true for normal completion or false for an
exception; the result pairs the whole trace with that flag. -/
def mountedRun (dev mnt : String) (body : String → List MEvent × Bool) :
    List MEvent × Bool :=
  let r := body mnt
  if r.2 then (MEvent.mountEv dev mnt :: r.1 ++ [MEvent.umountEv dev], true)
  else (MEvent.mountEv dev mnt :: r.1, false)

/-- Embeds check_args: accept when the first argument is the interactive
flag, or when there are exactly three arguments led by the disk or net
flag. -/
def check_args (args : List String) : Bool :=
  match args with
  | [] => false
  | a0 :: _ =>
    if a0 = "--interactive" then true
    else decide (args.length = 3) && (decide (a0 = "--disk") || decide (a0 = "--net"))

/-- Outcome of main: print usage and return an exit code, or run the
interactive pipeline, or run handle_dd on a mode/request/device triple. -/
inductive MainOutcome where
  | usage (exit_code : Nat)
  | interactive
  | handle (mode req dev : String)
deriving DecidableEq

/-- Embeds main: on rejected arguments print usage and return 2; otherwise
dispatch on the first argument to the interactive pipeline or to handle_dd
applied to the three arguments. The final wildcard is unreachable because
check_args only accepts the two shapes above. -/
def main_fn (args : List String) : MainOutcome :=
  if check_args args = false then .usage 2
  else if args.head? = some "--interactive" then .interactive
  else
    match args with
    | [mode, req, dev] => .handle mode req dev
    | _ => .usage 2

/-- Exit status of the process for a main outcome: main returns 2 after
printing usage and None otherwise, and the entry point raises
SystemExit(rv or 0). -/
def exit_code : MainOutcome → Nat
  | .usage c => c
  | _ => 0

/-- State of the TextMenu selection engine: the item sequence, the page
size, the 1-based current page number, the selected items in selection
order, the multi-select flag and the done flag. -/
structure TextMenu (α : Type) where
  items : List α
  page_height : Nat
  pagenum : Nat
  selected_items : List α
  multi : Bool
  is_done : Bool
deriving DecidableEq

/-- Constructor state of TextMenu: page number 1, nothing selected, not
done. -/
def TextMenu.init (items : List α) (page_height : Nat) (multi : Bool) : TextMenu α :=
  { items := items, page_height := page_height, pagenum := 1,
    selected_items := [], multi := multi, is_done := false }

/-- Embeds num_pages: divmod of the item count by the page height, plus one
page when there is a leftover. -/
def TextMenu.num_pages (m : TextMenu α) : Nat :=
  let pages := m.items.length / m.page_height
  let leftover := m.items.length % m.page_height
  if leftover ≠ 0 then pages + 1 else pages

/-- Embeds next: advance one page only when the current page number is
strictly below the page count. -/
def TextMenu.next (m : TextMenu α) : TextMenu α :=
  if m.pagenum < m.num_pages then { m with pagenum := m.pagenum + 1 } else m

/-- Embeds prev: retreat one page only when the current page number is
strictly above one. -/
def TextMenu.prev (m : TextMenu α) : TextMenu α :=
  if m.pagenum > 1 then { m with pagenum := m.pagenum - 1 } else m

/-- Embeds done: set the done flag. -/
def TextMenu.markDone (m : TextMenu α) : TextMenu α :=
  { m with is_done := true }

/-- Embeds toggle_item: remove the item when already selected, otherwise
append it; in single-select mode any toggle also terminates the menu. -/
def TextMenu.toggle_item [DecidableEq α] (m : TextMenu α) (item : α) : TextMenu α :=
  let m :=
    if item ∈ m.selected_items then
      { m with selected_items := m.selected_items.erase item }
    else
      { m with selected_items := m.selected_items ++ [item] }
  if !m.multi then m.markDone else m

/-- Embeds items_on_page: the empty sequence when the page start index lies
past the item count, otherwise the page slice enumerated with its absolute
start index. -/
def TextMenu.items_on_page (m : TextMenu α) : List (Nat × α) :=
  let start_idx := (m.pagenum - 1) * m.page_height
  if start_idx > m.items.length then []
  else ((m.items.drop start_idx).take m.page_height).enumFrom start_idx

/-- Numeric entries installed into action_dict by the loop over
items_on_page, which stores for each displayed pair a closure
toggling the loop variable. Python closures capture that variable by
reference, not by value, so when any stored closure later runs, the
variable holds the item of the final loop iteration; each numeric token is
therefore mapped to that final item (none when the page is empty and no
closure was stored). -/
def TextMenu.action_dict_numeric (m : TextMenu α) : List (String × Option α) :=
  let ps := m.items_on_page
  let ifinal := ps.foldl (fun _ p => some p.2) (none : Option α)
  ps.map (fun p => (toString (p.1 + 1), ifinal))

/-- A user-driven menu action, as dispatched by run: page moves, refresh
(the refresher returning a replacement item sequence), continue, a toggle,
or an invalid token (which only prints a message). -/
inductive MenuAct (α : Type) where
  | next
  | prev
  | refreshTo (new : List α)
  | done
  | toggle (item : α)
  | invalid

/-- One action dispatched on the menu state. Refresh replaces the item
sequence with the refresher result; invalid leaves the state unchanged. -/
def TextMenu.step [DecidableEq α] (m : TextMenu α) : MenuAct α → TextMenu α
  | .next => m.next
  | .prev => m.prev
  | .refreshTo l => { m with items := l }
  | .done => m.markDone
  | .toggle item => m.toggle_item item
  | .invalid => m

/-- A sequence of dispatched actions starting from a menu state. -/
def TextMenu.runActs [DecidableEq α] (m : TextMenu α) (acts : List (MenuAct α)) : TextMenu α :=
  acts.foldl TextMenu.step m

/-- Menu state with the page number set to the given page. -/
def TextMenu.setPage (m : TextMenu α) (k : Nat) : TextMenu α :=
  { m with pagenum := k }

/-- C1: the claim that the mounted scope unmounts on every exit path and
releases the mount point it created fails on the code: when the with-body
raises, the trace of the scope contains no umount event at all (the
generator body has no try/finally), and when the body completes normally
the single umount event targets the device argument, not the mount point
that mount created. -/
theorem mounted_scope_violations :
    (mountedRun "/dev/sr0" "/media/DD-1" (fun _ => ([], false))).1
      = [MEvent.mountEv "/dev/sr0" "/media/DD-1"]
    ∧ (mountedRun "/dev/sr0" "/media/DD-1" (fun _ => ([], true))).1
      = [MEvent.mountEv "/dev/sr0" "/media/DD-1", MEvent.umountEv "/dev/sr0"]
    ∧ "/dev/sr0" ≠ "/media/DD-1" := by
  refine ⟨rfl, rfl, by decide⟩

/-- C2: the claim that each numeric token toggles the item with that
number fails on the code: on a page showing two items, the stored actions
for the tokens one and two both toggle the second item, because every
closure created by the action_dict loop reads the same loop variable after
the loop finished. -/
theorem action_dict_late_binding :
    ((TextMenu.init ["itemA", "itemB"] 20 true).action_dict_numeric).lookup "1"
      = some (some "itemB")
    ∧ ((TextMenu.init ["itemA", "itemB"] 20 true).action_dict_numeric).lookup "2"
      = some (some "itemB") := by
  constructor <;> rfl

/-- C3: the claim that both helpers leave files already under the
destination untouched fails for the move helper: with one file under the
destination and one outside, move_files passes the whole input list to mv,
so the file under the destination is moved as well, while copy_files
correctly passes only the outside file to cp. -/
theorem move_files_touches_dest_files :
    move_files_moved ["/dest/subdir/file1".toList, "/src/file2".toList] "/dest".toList
      = ["/dest/subdir/file1".toList, "/src/file2".toList]
    ∧ copy_files_copied ["/dest/subdir/file1".toList, "/src/file2".toList] "/dest".toList
      = ["/src/file2".toList] := by
  constructor <;> rfl

/-- C4: the claim that the interactive package menu is built from the
flattened per-repository package lists fails on the code: for every
non-empty repository list, summing the per-repo lists with Python's sum
starts from the integer 0, and the very first addition of an int and a
list raises TypeError, so the menu is never constructed. -/
theorem repo_menu_sum_type_error (l : List Driver) (ls : List (List Driver)) :
    repo_menu_drivers (l :: ls)
      = Except.error "TypeError: unsupported operand type(s) for +" := by
  rfl

/-- C8 counterexample: the argument vector with the interactive flag
followed by a further argument is none of the three documented shapes, yet
check_args accepts it and main starts the interactive pipeline instead of
printing usage and exiting non-zero. -/
theorem check_args_accepts_extra_interactive_args :
    check_args ["--interactive", "LABEL=DD"] = true
    ∧ main_fn ["--interactive", "LABEL=DD"] = MainOutcome.interactive := by
  constructor <;> rfl

/-- C8 amended: check_args accepts exactly the vectors whose first
argument is the interactive flag (regardless of any further arguments,
which are ignored), plus the three-argument disk and net shapes; every
rejected vector makes main print usage and return the non-zero exit status
2 without raising, never starting the pipeline, and the three documented
shapes run their pipelines. -/
theorem check_args_amended (args : List String) (d p : String) :
    (check_args args = true ↔
      args.head? = some "--interactive"
      ∨ (args.length = 3 ∧ (args.head? = some "--disk" ∨ args.head? = some "--net")))
    ∧ (check_args args = true
        ∨ (main_fn args = MainOutcome.usage 2 ∧ exit_code (main_fn args) = 2))
    ∧ main_fn ["--interactive"] = MainOutcome.interactive
    ∧ main_fn ["--disk", d, p] = MainOutcome.handle "--disk" d p
    ∧ main_fn ["--net", d, p] = MainOutcome.handle "--net" d p := by
  refine ⟨?_, ?_, rfl, rfl, rfl⟩
  · cases args with
    | nil => simp [check_args]
    | cons a0 rest =>
      by_cases h : a0 = "--interactive"
      · subst h; simp [check_args]
      · simp [check_args, h, Bool.and_eq_true, Bool.or_eq_true, decide_eq_true_iff]
  · by_cases hc : check_args args = true
    · exact Or.inl hc
    · refine Or.inr ?_
      have hcf : check_args args = false := by
        cases hcase : check_args args
        · rfl
        · exact absurd hcase hc
      constructor
      · simp [main_fn, hcf]
      · simp [main_fn, hcf, exit_code]

theorem isPrefixOf_append_self (p r : List Char) : p.isPrefixOf (p ++ r) = true := by
  induction p with
  | nil => simp [List.isPrefixOf]
  | cons c cs ih => simp [List.isPrefixOf, ih]

theorem isPrefixOf_append_of_le (p l r : List Char) (h : p.length ≤ l.length) :
    p.isPrefixOf (l ++ r) = p.isPrefixOf l := by
  induction p generalizing l with
  | nil => simp [List.isPrefixOf]
  | cons a as ih =>
    cases l with
    | nil => simp at h
    | cons b bs =>
      simp only [List.cons_append, List.isPrefixOf, List.append_eq]
      rw [ih bs (by simpa using h)]

theorem cleanB_head (sep : List Char) (c : Char) (part : List Char)
    (h : cleanB sep (c :: part) = true) :
    sep.isPrefixOf ((c :: part) ++ sep) = false := by
  simp only [cleanB, List.tails_cons, List.all_cons, Bool.and_eq_true] at h
  have h1 := h.1
  simp only [List.isEmpty, Bool.false_or] at h1
  cases hcase : sep.isPrefixOf ((c :: part) ++ sep)
  · rfl
  · rw [hcase] at h1; simp at h1

theorem cleanB_tail (sep : List Char) (c : Char) (part : List Char)
    (h : cleanB sep (c :: part) = true) : cleanB sep part = true := by
  simp only [cleanB, List.tails_cons, List.all_cons, Bool.and_eq_true] at h
  exact h.2

theorem findSplit_append (sep part rest : List Char) (hsep : sep ≠ [])
    (hclean : cleanB sep part = true) :
    findSplit sep (part ++ (sep ++ rest)) = some (part, rest) := by
  induction part with
  | nil =>
    cases hs : sep with
    | nil => exact absurd hs hsep
    | cons c cs =>
      subst hs
      simp only [List.nil_append, List.cons_append, findSplit]
      rw [if_pos]
      · simp [List.drop_succ_cons, List.drop_left]
      · simp only [List.append_eq, ← List.cons_append]
        exact isPrefixOf_append_self (c :: cs) rest
  | cons c part' ih =>
    have hnotpre : sep.isPrefixOf ((c :: part') ++ (sep ++ rest)) = false := by
      have hle : sep.length ≤ ((c :: part') ++ sep).length := by
        simp [List.length_append]
        omega
      calc sep.isPrefixOf ((c :: part') ++ (sep ++ rest))
          = sep.isPrefixOf (((c :: part') ++ sep) ++ rest) := by rw [List.append_assoc]
        _ = sep.isPrefixOf ((c :: part') ++ sep) := isPrefixOf_append_of_le _ _ _ hle
        _ = false := cleanB_head sep c part' hclean
    rw [show (c :: part') ++ (sep ++ rest) = c :: (part' ++ (sep ++ rest)) from rfl]
    rw [findSplit]
    rw [show c :: (part' ++ (sep ++ rest)) = (c :: part') ++ (sep ++ rest) from rfl]
    rw [hnotpre]
    simp only [Bool.false_eq_true, if_false]
    rw [ih (cleanB_tail sep c part' hclean)]

theorem pySplitOn_nil (sep : List Char) : pySplitOn sep [] = [[]] := by
  rw [pySplitOn.eq_def]
  split
  · rfl
  · simp [findSplit]

theorem pySplitOn_ne_nil (sep s : List Char) : pySplitOn sep s ≠ [] := by
  rw [pySplitOn.eq_def]
  split
  · simp
  · split <;> simp

theorem pySplitOn_append (sep part rest : List Char) (hsep : sep ≠ [])
    (hclean : cleanB sep part = true) :
    pySplitOn sep (part ++ (sep ++ rest)) = part :: pySplitOn sep rest := by
  have hfind := findSplit_append sep part rest hsep hclean
  rw [pySplitOn.eq_def, dif_neg hsep]
  split
  · next heq => rw [hfind] at heq; cases heq
  · next pre post heq =>
    rw [hfind] at heq
    injection heq with heq
    injection heq with h1 h2
    subst h1
    subst h2
    rfl

theorem findSplit_single_mem (x : Char) (s : List Char) (hx : x ∈ s) :
    ∃ pre post, findSplit [x] s = some (pre, post) := by
  induction s with
  | nil => cases hx
  | cons c rest ih =>
    by_cases hc : List.isPrefixOf [x] (c :: rest) = true
    · exact ⟨[], (c :: rest).drop 1, by simp [findSplit, hc]⟩
    · have hxc : x ≠ c := by
        intro h
        subst h
        simp [List.isPrefixOf] at hc
      have hxs : x ∈ rest := by
        cases hx with
        | head => exact absurd rfl hxc
        | tail _ h => exact h
      obtain ⟨pre, post, hps⟩ := ih hxs
      refine ⟨c :: pre, post, ?_⟩
      rw [findSplit, if_neg hc, hps]

theorem pySplitOn_two_of_mem (x : Char) (s : List Char) (hx : x ∈ s) :
    2 ≤ (pySplitOn [x] s).length := by
  obtain ⟨pre, post, hps⟩ := findSplit_single_mem x s hx
  rw [pySplitOn.eq_def, dif_neg (by simp)]
  split
  · next heq => rw [hps] at heq; cases heq
  · next pre1 post1 heq =>
    have h1 := List.length_pos.mpr (pySplitOn_ne_nil [x] post1)
    simp only [List.length_cons]
    omega

theorem mem_of_getLast_eq {α : Type} (l : List α) (a : α) (h : l.getLast? = some a) :
    a ∈ l := by
  induction l with
  | nil => cases h
  | cons c rest ih =>
    cases hr : rest with
    | nil =>
      subst hr
      simp only [List.getLast?_singleton] at h
      injection h with h
      subst h
      exact List.mem_singleton_self c
    | cons d rest' =>
      subst hr
      rw [List.getLast?_cons_cons] at h
      exact List.mem_cons_of_mem c (ih h)

theorem splitlines_ne_nil_of_last_nl (s : PyStr) (h : s.getLast? = some '\n') :
    splitlines s ≠ [] := by
  have hne : s ≠ [] := by intro hnil; subst hnil; cases h
  have hmem : '\n' ∈ s := mem_of_getLast_eq s '\n' h
  have hlen := pySplitOn_two_of_mem '\n' s hmem
  cases hs : s with
  | nil => exact absurd hs hne
  | cons c rest =>
    rw [← hs]
    show (match s with
      | [] => []
      | _ => if s.getLast? = some '\n'
             then (pySplitOn ['\n'] s).dropLast else pySplitOn ['\n'] s) ≠ []
    rw [hs]
    rw [← hs]
    simp only [h, if_pos]
    intro hcontra
    have := congrArg List.length hcontra
    rw [List.length_dropLast] at this
    simp only [List.length_nil] at this
    omega

theorem newline_terminated_getLast (line : PyStr) :
    (if line.getLast? ≠ some '\n' then line ++ ['\n'] else line).getLast? = some '\n' := by
  by_cases h : line.getLast? = some '\n'
  · rw [if_neg (by simp [h])]
    exact h
  · rw [if_pos (by simp [h])]
    exact List.getLast?_concat line

theorem pySetEqb_nil_right (l : List PyStr) (h : l ≠ []) : pySetEqb l [] = false := by
  cases l with
  | nil => exact absurd rfl h
  | cons x xs => simp [pySetEqb]

theorem all_finished_after_first_mark (req : PyStr) :
    all_finished (mark_finished ([] : FS) req "/tmp") "/tmp" = false := by
  have hfin : read_lines (mark_finished ([] : FS) req "/tmp") ("/tmp" ++ "/dd_finished")
      = splitlines (if req.getLast? ≠ some '\n' then req ++ ['\n'] else req) := rfl
  have htodo : read_lines (mark_finished ([] : FS) req "/tmp") ("/tmp" ++ "/dd_todo")
      = [] := rfl
  simp only [all_finished]
  rw [hfin, htodo]
  exact pySetEqb_nil_right _
    (splitlines_ne_nil_of_last_nl _ (newline_terminated_getLast req))

theorem finish_empty_eq_mark (req : PyStr) :
    finish ([] : FS) req = mark_finished ([] : FS) req "/tmp" := by
  simp only [finish]
  rw [all_finished_after_first_mark req]
  simp

theorem finish_empty_no_sentinel (req : PyStr) :
    readFile? (finish ([] : FS) req) "/tmp/dd.done" = none := by
  rw [finish_empty_eq_mark req]
  rfl

/-- C9 counterexample: with neither ledger file present, all_finished is
true, yet a finish call for the request menu does not append to the
sentinel file: finish records the request in the finished ledger before
its completion check, so the check compares the finished set containing
menu with the empty to-do set and fails, and no sentinel is written. -/
theorem finish_empty_state_no_sentinel :
    all_finished ([] : FS) "/tmp" = true
    ∧ readFile? (finish ([] : FS) "menu".toList) "/tmp/dd.done" = none :=
  ⟨rfl, finish_empty_no_sentinel _⟩

/-- C9 amended: when the to-do and finished ledger files are both absent
or unreadable, reading each yields the empty set and all_finished returns
true; however a finish call in that state does not append to the one-shot
sentinel: finish first appends the request to the finished ledger, so its
completion check compares a non-empty finished set against the empty
to-do set, returns false, and the sentinel file stays absent. -/
theorem finish_empty_state_amended (req : PyStr) :
    all_finished ([] : FS) "/tmp" = true
    ∧ all_finished (mark_finished ([] : FS) req "/tmp") "/tmp" = false
    ∧ finish ([] : FS) req = mark_finished ([] : FS) req "/tmp"
    ∧ readFile? (finish ([] : FS) req) "/tmp/dd.done" = none :=
  ⟨rfl, all_finished_after_first_mark req, finish_empty_eq_mark req,
    finish_empty_no_sentinel req⟩

theorem pySetEqb_iff_toFinset (a b : List PyStr) :
    pySetEqb a b = true ↔ a.toFinset = b.toFinset := by
  simp only [pySetEqb, Bool.and_eq_true, List.all_eq_true]
  constructor
  · rintro ⟨h1, h2⟩
    apply Finset.ext
    intro x
    simp only [List.mem_toFinset]
    constructor
    · intro hx
      simpa using h1 x hx
    · intro hx
      simpa using h2 x hx
  · intro h
    have hiff : ∀ x : PyStr, x ∈ a ↔ x ∈ b := by
      intro x
      have := Finset.ext_iff.mp h x
      simpa using this
    constructor
    · intro x hx
      simpa using (hiff x).mp hx
    · intro x hx
      simpa using (hiff x).mpr hx

/-- C5: all_finished is a pure function of the current filesystem state,
reading both ledger files afresh on each call (the embedding passes the
live state to every call; nothing is cached), and it returns true exactly
when the set of identifiers in the finished ledger equals the set of
identifiers in the to-do ledger; since only the two line sets matter, the
result is independent of the order and multiplicity of lines in either
file, and it is false whenever some to-do identifier has no matching
finished entry. -/
theorem all_finished_iff_sets_equal (fs : FS) (topdir : String) :
    all_finished fs topdir = true
      ↔ (read_lines fs (topdir ++ "/dd_finished")).toFinset
          = (read_lines fs (topdir ++ "/dd_todo")).toFinset := by
  simp only [all_finished]
  exact pySetEqb_iff_toFinset _ _

theorem pySplitLimit_zero (sep : Char) (s : List Char) : pySplitLimit sep 0 s = [s] := by
  cases s <;> rfl

theorem pySplitLimit_cons_sep (sep : Char) (a : List Char) (ha : sep ∉ a)
    (n : Nat) (rest : List Char) :
    pySplitLimit sep (n + 1) (a ++ sep :: rest) = a :: pySplitLimit sep n rest := by
  induction a with
  | nil =>
    simp [pySplitLimit]
  | cons c a' ih =>
    have hc : ¬(c = sep) := fun hh => ha (hh ▸ List.mem_cons_self c a')
    simp only [List.cons_append, pySplitLimit, List.append_eq]
    rw [if_neg hc]
    rw [ih (fun hm => ha (List.mem_cons_of_mem c hm))]

theorem pySplitLimit_record (src nm fl desc : List Char)
    (hsrc : '\n' ∉ src) (hnm : '\n' ∉ nm) (hfl : '\n' ∉ fl) :
    pySplitLimit '\n' 3 (src ++ '\n' :: (nm ++ '\n' :: (fl ++ '\n' :: desc)))
      = [src, nm, fl, desc] := by
  rw [pySplitLimit_cons_sep '\n' src hsrc 2 _]
  rw [pySplitLimit_cons_sep '\n' nm hnm 1 _]
  rw [pySplitLimit_cons_sep '\n' fl hfl 0 _]
  rw [pySplitLimit_zero]

theorem renderRecord_ne_nil (r : Driver) : renderRecord r ≠ [] := by
  unfold renderRecord
  cases hsrc : r.source <;> simp

/-- C7: for every well-formed dd_list output text, built from a list of
records each terminated by the separator line of three hyphens, where the
first three fields of each record contain no newline and no record body
contains an interior separator match, the parser produces exactly one
Driver per record whose source, name and flags are the first three
newline-delimited fields, whose description is the entire remainder of the
record (embedded newlines preserved, since the split takes at most four
fields from the front) and whose repo is the queried path. -/
theorem dd_list_parses_records (dd_path : PyStr) (rs : List Driver)
    (hfields : ∀ r ∈ rs, '\n' ∉ r.source ∧ '\n' ∉ r.name ∧ '\n' ∉ r.flags)
    (hclean : ∀ r ∈ rs, cleanB SEP (renderRecord r) = true) :
    dd_list_parse dd_path (renderOutput rs)
      = rs.map (fun r => { r with repo := dd_path }) := by
  induction rs with
  | nil =>
    simp [dd_list_parse, renderOutput, pySplitOn_nil]
  | cons r rs ih =>
    have hrmem : r ∈ r :: rs := List.mem_cons_self r rs
    have hsplit : pySplitOn SEP (renderOutput (r :: rs))
        = renderRecord r :: pySplitOn SEP (renderOutput rs) := by
      have hassoc : renderOutput (r :: rs)
          = renderRecord r ++ (SEP ++ renderOutput rs) := by
        simp [renderOutput, List.append_assoc]
      rw [hassoc]
      exact pySplitOn_append SEP (renderRecord r) (renderOutput rs)
        (by simp [SEP]) (hclean r hrmem)
    have hne : (!(renderRecord r).isEmpty) = true := by
      cases hrr : renderRecord r with
      | nil => exact absurd hrr (renderRecord_ne_nil r)
      | cons c cs => simp
    have hhead : driverOfFields (pySplitLimit '\n' 3 (renderRecord r))
        = ⟨r.source, r.name, r.flags, r.description, []⟩ := by
      obtain ⟨h1, h2, h3⟩ := hfields r hrmem
      have hrr : renderRecord r
          = r.source ++ '\n' :: (r.name ++ '\n' :: (r.flags ++ '\n' :: r.description)) := by
        simp [renderRecord, List.append_assoc]
      rw [hrr]
      rw [pySplitLimit_record r.source r.name r.flags r.description h1 h2 h3]
      rfl
    simp only [dd_list_parse] at ih ⊢
    rw [hsplit]
    simp only [List.filter_cons, hne, if_true]
    simp only [List.map_cons, hhead]
    rw [ih (fun x hx => hfields x (List.mem_cons_of_mem r hx))
        (fun x hx => hclean x (List.mem_cons_of_mem r hx))]

/-- A concrete driver record with a multi-line description, mirroring the
repository test data. -/
def fakeModule : Driver :=
  ⟨"/repo/path/to/fake-driver-1.0-1.rpm".toList, "fake-driver".toList,
   "modules firmwares".toList,
   "Wow this is totally a fake driver.\nHooray for this".toList,
   "/repo/path/to".toList⟩

/-- A second concrete driver record whose description contains a blank
line. -/
def fakeEnhancement : Driver :=
  ⟨"/repo/path/to/fake-enhancement-1.0-1.rpm".toList, "fake-enhancement".toList,
   "binaries libraries".toList,
   "This is enhancing the crap out of the installer.\n\nYeah.".toList,
   "/repo/path/to".toList⟩

/-- Witness for C7: the hypotheses hold for a concrete two-record output
whose descriptions contain embedded newlines, and the parser applied to
that rendered output returns exactly the two records with their repo set. -/
theorem dd_list_parses_records_witness :
    ('\n' ∉ fakeModule.source ∧ '\n' ∉ fakeModule.name ∧ '\n' ∉ fakeModule.flags)
    ∧ ('\n' ∉ fakeEnhancement.source ∧ '\n' ∉ fakeEnhancement.name
        ∧ '\n' ∉ fakeEnhancement.flags)
    ∧ cleanB SEP (renderRecord fakeModule) = true
    ∧ cleanB SEP (renderRecord fakeEnhancement) = true
    ∧ dd_list_parse "/repo/path/to".toList (renderOutput [fakeModule, fakeEnhancement])
        = [fakeModule, fakeEnhancement].map
            (fun r => { r with repo := "/repo/path/to".toList }) :=
  ⟨by decide, by decide, by decide, by decide,
    dd_list_parses_records "/repo/path/to".toList [fakeModule, fakeEnhancement]
      (by decide) (by decide)⟩

theorem get?_drop_eq {α : Type} (l : List α) (n j : Nat) :
    (l.drop n).get? j = l.get? (n + j) := by
  induction l generalizing n with
  | nil => simp
  | cons a as ih =>
    cases n with
    | zero => simp
    | succ n =>
      simp only [List.drop_succ_cons]
      rw [ih n]
      have harith : n + 1 + j = (n + j) + 1 := by omega
      rw [harith, List.get?_cons_succ]

theorem get?_take_eq_some {α : Type} (l : List α) (m j : Nat) (x : α) :
    (l.take m).get? j = some x ↔ j < m ∧ l.get? j = some x := by
  constructor
  · intro h
    by_cases hj : j < m
    · exact ⟨hj, by rwa [List.get?_take hj] at h⟩
    · exfalso
      have hlen : (l.take m).length ≤ j := by
        rw [List.length_take]
        omega
      rw [List.get?_eq_none.mpr hlen] at h
      cases h
  · rintro ⟨hj, h⟩
    rwa [List.get?_take hj]

theorem mem_enumFrom_iff {α : Type} {l : List α} {n i : Nat} {x : α} :
    (i, x) ∈ l.enumFrom n ↔ n ≤ i ∧ l.get? (i - n) = some x := by
  induction l generalizing n with
  | nil => simp [List.enumFrom]
  | cons a as ih =>
    simp only [List.enumFrom, List.mem_cons, ih]
    constructor
    · rintro (heq | ⟨h1, h2⟩)
      · injection heq with hi hx
        subst hi
        subst hx
        refine ⟨Nat.le_refl _, ?_⟩
        simp
      · refine ⟨Nat.le_of_succ_le h1, ?_⟩
        have harith : i - n = (i - (n + 1)) + 1 := by omega
        rw [harith, List.get?_cons_succ]
        exact h2
    · rintro ⟨h1, h2⟩
      by_cases hi : i = n
      · subst hi
        left
        simp only [Nat.sub_self, List.get?_cons_zero] at h2
        injection h2 with h2
        subst h2
        rfl
      · right
        have hlt : n + 1 ≤ i := by omega
        refine ⟨hlt, ?_⟩
        have harith : i - n = (i - (n + 1)) + 1 := by omega
        rw [harith, List.get?_cons_succ] at h2
        exact h2

theorem div_mod_ceil (L P : Nat) (hP : 0 < P) :
    (if L % P ≠ 0 then L / P + 1 else L / P) = (L + P - 1) / P := by
  have hq := Nat.div_add_mod L P
  have hrP : L % P < P := Nat.mod_lt _ hP
  by_cases hr : L % P = 0
  · rw [if_neg (by simpa using hr)]
    have h1 : L + P - 1 = P * (L / P) + (P - 1) := by omega
    have h2 : (P * (L / P) + (P - 1)) / P = L / P + (P - 1) / P := Nat.mul_add_div hP _ _
    have h3 : (P - 1) / P = 0 := Nat.div_eq_of_lt (by omega)
    rw [h1, h2, h3]
    omega
  · rw [if_pos hr]
    have hexp : P * (L / P + 1) = P * (L / P) + P := by ring
    have h1 : L + P - 1 = P * (L / P + 1) + (L % P - 1) := by omega
    have h2 : (P * (L / P + 1) + (L % P - 1)) / P = L / P + 1 + (L % P - 1) / P :=
      Nat.mul_add_div hP _ _
    have h3 : (L % P - 1) / P = 0 := Nat.div_eq_of_lt (by omega)
    rw [h1, h2, h3]

theorem num_pages_eq_ceil {α : Type} (m : TextMenu α) (hP : 0 < m.page_height) :
    m.num_pages = (m.items.length + m.page_height - 1) / m.page_height := by
  unfold TextMenu.num_pages
  exact div_mod_ceil m.items.length m.page_height hP

theorem page_start_lt (L P k : Nat) (hP : 0 < P) (hk1 : 1 ≤ k)
    (hk : k ≤ (if L % P ≠ 0 then L / P + 1 else L / P)) : (k - 1) * P < L := by
  have hq := Nat.div_add_mod L P
  have hrP : L % P < P := Nat.mod_lt _ hP
  by_cases hr : L % P = 0
  · rw [if_neg (by simpa using hr)] at hk
    have hklt : k - 1 < L / P := by omega
    have h1 : (k - 1) * P < (L / P) * P :=
      Nat.mul_lt_mul_of_lt_of_le hklt (Nat.le_refl P) hP
    have h2 : (L / P) * P ≤ L := Nat.div_mul_le_self L P
    omega
  · rw [if_pos hr] at hk
    have hkle : k - 1 ≤ L / P := by omega
    have h1 : (k - 1) * P ≤ (L / P) * P := Nat.mul_le_mul_right P hkle
    have h2 : (L / P) * P = P * (L / P) := Nat.mul_comm _ _
    omega

theorem mul_sub_one_add {P k : Nat} (hk1 : 1 ≤ k) :
    (k - 1) * P + P = k * P := by
  have hkk : k - 1 + 1 = k := by omega
  calc (k - 1) * P + P = (k - 1 + 1) * P := by rw [Nat.add_mul, Nat.one_mul]
    _ = k * P := by rw [hkk]

theorem items_on_page_mem_iff {α : Type} (m : TextMenu α) (k i : Nat) (x : α)
    (hP : 0 < m.page_height) (hk1 : 1 ≤ k) (hk : k ≤ m.num_pages) :
    ((i, x) ∈ (m.setPage k).items_on_page
      ↔ ((k - 1) * m.page_height ≤ i ∧ i < k * m.page_height
          ∧ m.items.get? i = some x)) := by
  have hstart : (k - 1) * m.page_height < m.items.length :=
    page_start_lt m.items.length m.page_height k hP hk1 hk
  have hpage : (m.setPage k).items_on_page
      = ((m.items.drop ((k - 1) * m.page_height)).take m.page_height).enumFrom
          ((k - 1) * m.page_height) := by
    show (if (k - 1) * m.page_height > m.items.length then ([] : List (Nat × α))
          else ((m.items.drop ((k - 1) * m.page_height)).take m.page_height).enumFrom
            ((k - 1) * m.page_height)) = _
    rw [if_neg (by omega)]
  have hk_mul : (k - 1) * m.page_height + m.page_height = k * m.page_height :=
    mul_sub_one_add hk1
  rw [hpage, mem_enumFrom_iff, get?_take_eq_some, get?_drop_eq]
  constructor
  · rintro ⟨h1, h2, h3⟩
    have harith : (k - 1) * m.page_height + (i - (k - 1) * m.page_height) = i := by omega
    rw [harith] at h3
    exact ⟨h1, by omega, h3⟩
  · rintro ⟨h1, h2, h3⟩
    have harith : (k - 1) * m.page_height + (i - (k - 1) * m.page_height) = i := by omega
    exact ⟨h1, by omega, by rw [harith]; exact h3⟩

theorem next_last_noop {α : Type} (m : TextMenu α) :
    TextMenu.next (m.setPage m.num_pages) = m.setPage m.num_pages := by
  have h1 : (m.setPage m.num_pages).pagenum = m.num_pages := rfl
  have h2 : (m.setPage m.num_pages).num_pages = m.num_pages := rfl
  unfold TextMenu.next
  rw [h1, h2, if_neg (lt_irrefl _)]

theorem prev_first_noop {α : Type} (m : TextMenu α) :
    TextMenu.prev (m.setPage 1) = m.setPage 1 := by
  have h1 : (m.setPage 1).pagenum = 1 := rfl
  unfold TextMenu.prev
  rw [h1, if_neg (by omega)]

/-- C6: for every menu with a positive page size, the page count equals
the ceiling of the item count divided by the page size; a valid page k
displays exactly the pairs whose index lies in the k-th window of the item
sequence (paired with the item at that index); invoking next on the last
page and prev on the first page each return the whole menu state
unchanged. -/
theorem menu_pagination (α : Type) (m : TextMenu α) (k i : Nat) (x : α)
    (hP : 0 < m.page_height) (hk1 : 1 ≤ k) (hk : k ≤ m.num_pages) :
    m.num_pages = (m.items.length + m.page_height - 1) / m.page_height
    ∧ ((i, x) ∈ (m.setPage k).items_on_page
        ↔ ((k - 1) * m.page_height ≤ i ∧ i < k * m.page_height
            ∧ m.items.get? i = some x))
    ∧ TextMenu.next (m.setPage m.num_pages) = m.setPage m.num_pages
    ∧ TextMenu.prev (m.setPage 1) = m.setPage 1 :=
  ⟨num_pages_eq_ceil m hP, items_on_page_mem_iff m k i x hP hk1 hk,
    next_last_noop m, prev_first_noop m⟩

/-- Witness for C6: at a 45-item menu with page size 20 the hypotheses
hold (page count 3, page 3 valid), and the theorem instantiates at page 3
and index 41. -/
theorem menu_pagination_witness :
    (0 < (TextMenu.init (List.range 45) 20 true).page_height
      ∧ 1 ≤ 3 ∧ 3 ≤ (TextMenu.init (List.range 45) 20 true).num_pages)
    ∧ ((TextMenu.init (List.range 45) 20 true).num_pages
        = ((TextMenu.init (List.range 45) 20 true).items.length
            + (TextMenu.init (List.range 45) 20 true).page_height - 1)
          / (TextMenu.init (List.range 45) 20 true).page_height
      ∧ (((41, 41) ∈ ((TextMenu.init (List.range 45) 20 true).setPage 3).items_on_page)
          ↔ ((3 - 1) * (TextMenu.init (List.range 45) 20 true).page_height ≤ 41
              ∧ 41 < 3 * (TextMenu.init (List.range 45) 20 true).page_height
              ∧ (TextMenu.init (List.range 45) 20 true).items.get? 41 = some 41))
      ∧ TextMenu.next ((TextMenu.init (List.range 45) 20 true).setPage
            (TextMenu.init (List.range 45) 20 true).num_pages)
          = (TextMenu.init (List.range 45) 20 true).setPage
              (TextMenu.init (List.range 45) 20 true).num_pages
      ∧ TextMenu.prev ((TextMenu.init (List.range 45) 20 true).setPage 1)
          = (TextMenu.init (List.range 45) 20 true).setPage 1) :=
  ⟨⟨by decide, by decide, by decide⟩,
    menu_pagination Nat (TextMenu.init (List.range 45) 20 true) 3 41 41
      (by decide) (by decide) (by decide)⟩

theorem step_pagenum_ge_one {α : Type} [DecidableEq α] (m : TextMenu α) (a : MenuAct α)
    (h : 1 ≤ m.pagenum) : 1 ≤ (m.step a).pagenum := by
  cases a with
  | next =>
    show 1 ≤ m.next.pagenum
    unfold TextMenu.next
    split
    · simp only []
      omega
    · exact h
  | prev =>
    show 1 ≤ m.prev.pagenum
    unfold TextMenu.prev
    split
    · next hgt => simp only []; omega
    · exact h
  | refreshTo l => exact h
  | done => exact h
  | toggle item =>
    show 1 ≤ (m.toggle_item item).pagenum
    by_cases h1 : item ∈ m.selected_items <;>
      by_cases h2 : m.multi = true <;>
        simp [TextMenu.toggle_item, TextMenu.markDone, h1, h2] <;>
          exact h
  | invalid => exact h

theorem runActs_pagenum_ge_one {α : Type} [DecidableEq α]
    (acts : List (MenuAct α)) (m : TextMenu α) (h : 1 ≤ m.pagenum) :
    1 ≤ (m.runActs acts).pagenum := by
  induction acts generalizing m with
  | nil => exact h
  | cons a as ih => exact ih (m.step a) (step_pagenum_ge_one m a h)

theorem items_on_page_get {α : Type} (m : TextMenu α) (p : Nat × α)
    (hp : p ∈ m.items_on_page) : m.items.get? p.1 = some p.2 := by
  obtain ⟨i, x⟩ := p
  have hrepr : m.items_on_page
      = if (m.pagenum - 1) * m.page_height > m.items.length then []
        else ((m.items.drop ((m.pagenum - 1) * m.page_height)).take m.page_height).enumFrom
          ((m.pagenum - 1) * m.page_height) := rfl
  rw [hrepr] at hp
  by_cases hs : (m.pagenum - 1) * m.page_height > m.items.length
  · rw [if_pos hs] at hp
    cases hp
  · rw [if_neg hs] at hp
    rw [mem_enumFrom_iff] at hp
    obtain ⟨h1, h2⟩ := hp
    rw [get?_take_eq_some, get?_drop_eq] at h2
    obtain ⟨h3, h4⟩ := h2
    have harith : (m.pagenum - 1) * m.page_height
        + (i - (m.pagenum - 1) * m.page_height) = i := by omega
    rwa [harith] at h4

theorem items_on_page_length {α : Type} (m : TextMenu α) :
    m.items_on_page.length
      = min (m.items.length - (m.pagenum - 1) * m.page_height) m.page_height := by
  have hrepr : m.items_on_page
      = if (m.pagenum - 1) * m.page_height > m.items.length then []
        else ((m.items.drop ((m.pagenum - 1) * m.page_height)).take m.page_height).enumFrom
          ((m.pagenum - 1) * m.page_height) := rfl
  rw [hrepr]
  by_cases hs : (m.pagenum - 1) * m.page_height > m.items.length
  · rw [if_pos hs]
    simp only [List.length_nil]
    omega
  · rw [if_neg hs]
    rw [List.enumFrom_length, List.length_take, List.length_drop]
    omega

/-- C10: after any sequence of menu actions starting from a freshly
constructed menu (including refreshes that replace the item sequence with
a shorter one), the page number stays at least 1; every pair yielded by
items_on_page carries an index that is a valid position of the current
item sequence together with the item stored there; and the number of
yielded pairs is the size of the intersection of the page window with the
sequence — in particular zero (nothing is yielded and nothing fails) when
the page start index lies at or beyond the end of the sequence. -/
theorem menu_invariants (α : Type) [DecidableEq α]
    (items : List α) (P : Nat) (multi : Bool) (acts : List (MenuAct α)) :
    1 ≤ ((TextMenu.init items P multi).runActs acts).pagenum
    ∧ (((TextMenu.init items P multi).runActs acts).items_on_page.all
        (fun p => decide (((TextMenu.init items P multi).runActs acts).items.get? p.1
          = some p.2))) = true
    ∧ ((TextMenu.init items P multi).runActs acts).items_on_page.length
        = min (((TextMenu.init items P multi).runActs acts).items.length
              - (((TextMenu.init items P multi).runActs acts).pagenum - 1)
                * ((TextMenu.init items P multi).runActs acts).page_height)
            ((TextMenu.init items P multi).runActs acts).page_height := by
  refine ⟨runActs_pagenum_ge_one acts _ (Nat.le_refl 1), ?_, items_on_page_length _⟩
  rw [List.all_eq_true]
  intro p hp
  rw [decide_eq_true_iff]
  exact items_on_page_get _ p hp
